import Mathlib

/-!
Verification of the clinical trial demand calculator.

Shallow embedding of the core computational logic of the repository:
  - `clinical_demand.py` : `ProductParams`, `DosingParams`,
    `calculate_product_demand`, `calculate_group_demand`.
  - `clinical_demand_app.py` : the per-product total aggregation loop in
    `main`, `slugify`, the sanitized-column-map construction and the row
    expansion in `expand_product_rows`.

Modelling conventions:
  - Python floats are modelled as exact rationals (`ℚ`); Python ints as `ℤ`
    (or `ℕ` where the value is structurally a count).
  - Python dicts are modelled as association lists in insertion order, with
    Python's semantics: updating an existing key keeps its position, a new
    key is appended at the end.  `dictFind?`/`dictGet`/`dictInsert` below
    implement exactly `d[k]` lookup, `d.get(k, default)` and `d[k] = v`.
  - A possibly-missing product entry (`None` in a products list) is
    modelled with `Option`.
-/

namespace ClinicalDemand

/-- Python `d.get(k)` on an association-list dict: the value at the first
matching key, if any. -/
def dictFind? {κ α : Type} [BEq κ] (d : List (κ × α)) (k : κ) : Option α :=
  (d.find? (fun p => p.1 == k)).map (fun p => p.2)

/-- Python `d.get(k, d0)`. -/
def dictGet {κ α : Type} [BEq κ] (d : List (κ × α)) (k : κ) (d0 : α) : α :=
  (dictFind? d k).getD d0

/-- Python `d[k] = v`: replace the value at an existing key in place,
otherwise append the new binding at the end (insertion order). -/
def dictInsert {κ α : Type} [BEq κ] : List (κ × α) → κ → α → List (κ × α)
  | [], k, v => [(k, v)]
  | p :: rest, k, v => if p.1 == k then (k, v) :: rest else p :: dictInsert rest k v

/-- Whether the dict has the key (Python `k in d`). -/
def dictHasKey {κ α : Type} [BEq κ] (d : List (κ × α)) (k : κ) : Bool :=
  d.any (fun p => p.1 == k)

theorem dictFind?_dictInsert {κ α : Type} [BEq κ] [LawfulBEq κ] [DecidableEq κ]
    (d : List (κ × α)) (k k' : κ) (v : α) :
    dictFind? (dictInsert d k v) k' = if k' = k then some v else dictFind? d k' := by
  induction d with
  | nil =>
    by_cases h : k' = k
    · subst h; simp [dictFind?, dictInsert]
    · have hb : (k == k') = false := beq_eq_false_iff_ne.mpr (fun e => h e.symm)
      simp [dictFind?, dictInsert, hb, h]
  | cons p rest ih =>
    by_cases hp : p.1 = k
    · have hb : (p.1 == k) = true := beq_iff_eq.mpr hp
      by_cases h : k' = k
      · subst h
        simp [dictFind?, dictInsert, hb]
      · have hb2 : (k == k') = false := beq_eq_false_iff_ne.mpr (fun e => h e.symm)
        have hb3 : (p.1 == k') = false := by rw [hp]; exact hb2
        simp [dictFind?, dictInsert, hb, hb2, hb3, h]
    · have hb : (p.1 == k) = false := beq_eq_false_iff_ne.mpr hp
      by_cases hpk : p.1 = k'
      · have hk : ¬ k' = k := fun e => hp (hpk.trans e)
        have hb2 : (p.1 == k') = true := beq_iff_eq.mpr hpk
        simp [dictFind?, dictInsert, hb, hb2, hk]
      · have hb2 : (p.1 == k') = false := beq_eq_false_iff_ne.mpr hpk
        simp only [dictInsert, hb, Bool.false_eq_true, if_false]
        simp only [dictFind?] at ih ⊢
        rw [List.find?_cons_of_neg _ (by simp [hb2]), ih,
          List.find?_cons_of_neg _ (by simp [hb2])]

theorem dictGet_dictInsert {κ α : Type} [BEq κ] [LawfulBEq κ] [DecidableEq κ]
    (d : List (κ × α)) (k k' : κ) (v d0 : α) :
    dictGet (dictInsert d k v) k' d0 = if k' = k then v else dictGet d k' d0 := by
  simp only [dictGet, dictFind?_dictInsert]
  by_cases h : k' = k <;> simp [h]

/-! ## Dosing model (`clinical_demand.py`) -/

/-- `ProductParams` dataclass: per-product dosing parameters. -/
structure ProductParams where
  name : String
  product_amount : ℚ
  admin_points : ℤ
  days : ℤ
deriving DecidableEq, Repr

/-- `DosingParams` dataclass: one treatment group.  A products list entry may
be `None` (an incomplete interactive slot), hence `Option`. -/
structure DosingParams where
  patients : ℤ
  products : List (Option ProductParams)
  buffer_pct : ℤ := 0
deriving DecidableEq, Repr

/-- `calculate_product_demand`: demand (mg) for a single product
configuration, including the buffer percentage. -/
def calculate_product_demand (patients : ℤ) (params : ProductParams)
    (buffer_pct : ℤ) : ℚ :=
  let base : ℚ := (patients : ℚ) * params.product_amount *
    (params.admin_points : ℚ) * (params.days : ℚ)
  base * (1 + (buffer_pct : ℚ) / 100)

/-- One iteration of the `for product in params.products` loop of
`calculate_group_demand`: skip a `None` entry, otherwise accumulate the
product's demand into the running total and into the `by_product` dict. -/
def groupStep (patients buffer_pct : ℤ) (acc : ℚ × List (String × ℚ))
    (product : Option ProductParams) : ℚ × List (String × ℚ) :=
  match product with
  | none => acc
  | some p =>
    let amount := calculate_product_demand patients p buffer_pct
    (acc.1 + amount, dictInsert acc.2 p.name (dictGet acc.2 p.name 0 + amount))

/-- `calculate_group_demand`: returns `(total, by_product)`. -/
def calculate_group_demand (params : DosingParams) : ℚ × List (String × ℚ) :=
  params.products.foldl (groupStep params.patients params.buffer_pct) (0, [])

end ClinicalDemand

namespace ClinicalDemand

/-! ## Claims about the demand calculator -/

/-- Claim C1: for every patients count, `ProductParams` and buffer
percentage, `calculate_product_demand` returns exactly
`patients * product_amount * admin_points * days * (1 + buffer_pct/100)`,
with no rounding applied (the result is an exact rational). -/
theorem calculate_product_demand_formula (patients : ℤ) (product : ProductParams)
    (buffer_pct : ℤ) :
    calculate_product_demand patients product buffer_pct =
      (patients : ℚ) * product.product_amount * (product.admin_points : ℚ) *
        (product.days : ℚ) * (1 + (buffer_pct : ℚ) / 100) := rfl

/-- Claim C3: a `None` entry in the products list is silently skipped: the
result (total and breakdown alike) equals the result on the list with that
entry removed, and the function is total (no error). -/
theorem calculate_group_demand_skips_none (patients buffer_pct : ℤ)
    (l₁ l₂ : List (Option ProductParams)) :
    calculate_group_demand ⟨patients, l₁ ++ none :: l₂, buffer_pct⟩ =
      calculate_group_demand ⟨patients, l₁ ++ l₂, buffer_pct⟩ := by
  simp [calculate_group_demand, List.foldl_append, groupStep]

/-- Claim C4: a group with zero valid products (every entry of the products
list absent) yields exactly the pair `(0, ∅)`. -/
theorem calculate_group_demand_no_valid (params : DosingParams)
    (h : ∀ p ∈ params.products, p = none) :
    calculate_group_demand params = (0, []) := by
  obtain ⟨pat, prods, buf⟩ := params
  simp only [calculate_group_demand] at *
  induction prods with
  | nil => rfl
  | cons hd tl ih =>
    have hhd : hd = none := h hd (List.mem_cons_self hd tl)
    subst hhd
    simp only [List.foldl_cons, groupStep]
    exact ih (fun p hp => h p (List.mem_cons_of_mem _ hp))

/-- Witness for C4 at a concrete group whose two product slots are both
absent. -/
theorem calculate_group_demand_no_valid_witness :
    calculate_group_demand ⟨5, [none, none], 10⟩ = (0, []) :=
  calculate_group_demand_no_valid ⟨5, [none, none], 10⟩ (by simp)

/-- Sum of the values of a breakdown dict. -/
def sumValues (d : List (String × ℚ)) : ℚ := (d.map (fun p => p.2)).sum

theorem sumValues_dictInsert_add (d : List (String × ℚ)) (k : String) (a : ℚ) :
    sumValues (dictInsert d k (dictGet d k 0 + a)) = sumValues d + a := by
  induction d with
  | nil =>
    simp [dictInsert, dictGet, dictFind?, sumValues]
  | cons p rest ih =>
    by_cases hp : p.1 = k
    · simp only [dictInsert, hp, beq_self_eq_true, if_true]
      have hget : dictGet (p :: rest) k 0 = p.2 := by
        simp [dictGet, dictFind?, List.find?, hp]
      rw [hget]
      simp [sumValues]
      ring
    · have hb : (p.1 == k) = false := beq_eq_false_iff_ne.mpr hp
      simp only [dictInsert, hb, Bool.false_eq_true, if_false]
      have hget : dictGet (p :: rest) k 0 = dictGet rest k 0 := by
        simp only [dictGet, dictFind?]
        rw [List.find?_cons_of_neg _ (by simp [hb])]
      rw [hget]
      simp only [sumValues, List.map_cons, List.sum_cons] at ih ⊢
      rw [ih]
      ring

theorem foldl_groupStep_total (patients buffer_pct : ℤ)
    (prods : List (Option ProductParams)) :
    ∀ acc : ℚ × List (String × ℚ),
      (prods.foldl (groupStep patients buffer_pct) acc).1 -
        sumValues (prods.foldl (groupStep patients buffer_pct) acc).2 =
      acc.1 - sumValues acc.2 := by
  induction prods with
  | nil => intro acc; rfl
  | cons hd tl ih =>
    intro acc
    cases hd with
    | none => simpa [groupStep] using ih acc
    | some p =>
      simp only [List.foldl_cons, groupStep]
      rw [ih]
      simp [sumValues_dictInsert_add]

/-- Claim C10: the total returned by `calculate_group_demand` always equals
the sum of the per-product breakdown entries. -/
theorem calculate_group_demand_total_eq_sum (params : DosingParams) :
    (calculate_group_demand params).1 = sumValues (calculate_group_demand params).2 := by
  have h := foldl_groupStep_total params.patients params.buffer_pct params.products (0, [])
  have h' : (calculate_group_demand params).1 -
      sumValues (calculate_group_demand params).2 = 0 := by
    simp only [calculate_group_demand]
    rw [h]
    simp [sumValues]
  linarith [h']

/-- Whether a products-list entry is a present product with the given name. -/
def entryNamed (name : String) (po : Option ProductParams) : Bool :=
  match po with
  | none => false
  | some p => p.name == name

/-- The sum of the individual demands of every occurrence of `name` in a
products list (each occurrence contributes its own demand). -/
def demandFor (patients buffer_pct : ℤ) (name : String)
    (prods : List (Option ProductParams)) : ℚ :=
  (prods.map (fun po =>
    if entryNamed name po then
      calculate_product_demand patients (po.getD ⟨name, 0, 0, 0⟩) buffer_pct
    else 0)).sum

theorem foldl_groupStep_get (patients buffer_pct : ℤ) (name : String)
    (prods : List (Option ProductParams)) :
    ∀ acc : ℚ × List (String × ℚ),
      dictGet (prods.foldl (groupStep patients buffer_pct) acc).2 name 0 =
        dictGet acc.2 name 0 + demandFor patients buffer_pct name prods := by
  induction prods with
  | nil => intro acc; simp [demandFor]
  | cons hd tl ih =>
    intro acc
    cases hd with
    | none =>
      simp only [List.foldl_cons, groupStep]
      rw [ih]
      simp [demandFor, entryNamed]
    | some p =>
      simp only [List.foldl_cons, groupStep]
      rw [ih]
      by_cases hn : p.name = name
      · have he : entryNamed name (some p) = true := by
          simp [entryNamed, hn]
        rw [dictGet_dictInsert]
        rw [if_pos hn.symm]
        simp only [demandFor, List.map_cons, List.sum_cons, he, if_true,
          Option.getD_some]
        rw [hn]
        ring
      · have he : entryNamed name (some p) = false := by
          simp [entryNamed, hn]
        rw [dictGet_dictInsert]
        rw [if_neg (fun e => hn e.symm)]
        simp only [demandFor, List.map_cons, List.sum_cons, he,
          Bool.false_eq_true, if_false]
        ring

/-- Claim C2: when a product name occurs more than once in a group's
products list, the `by_product` entry for that name is the sum of the
individual demands of every occurrence (duplicates merge additively). -/
theorem by_product_duplicates_sum (params : DosingParams) (name : String)
    (_h : 2 ≤ params.products.countP (entryNamed name)) :
    dictGet (calculate_group_demand params).2 name 0 =
      demandFor params.patients params.buffer_pct name params.products := by
  have := foldl_groupStep_get params.patients params.buffer_pct name
    params.products (0, [])
  simp only [calculate_group_demand]
  rw [this]
  simp [dictGet, dictFind?]

/-- Witness for C2: a group whose products list names `"p"` twice; the
breakdown entry for `"p"` is the sum of both occurrences' demands. -/
theorem by_product_duplicates_sum_witness :
    2 ≤ (DosingParams.mk 5 [some ⟨"p", 10, 2, 3⟩, some ⟨"p", 1, 1, 1⟩] 0).products.countP
        (entryNamed "p") ∧
    dictGet (calculate_group_demand
        (DosingParams.mk 5 [some ⟨"p", 10, 2, 3⟩, some ⟨"p", 1, 1, 1⟩] 0)).2 "p" 0 =
      demandFor 5 0 "p" [some ⟨"p", 10, 2, 3⟩, some ⟨"p", 1, 1, 1⟩] :=
  ⟨by decide, by_product_duplicates_sum _ "p" (by decide)⟩

/-! ## Per-product total aggregation (`main`, `clinical_demand_app.py`)

The loop
```
for g in all_groups:
    pb = g.get("product_breakdown") or \x7b\x7d
    for pname, amt in pb.items():
        product_totals[pname] = product_totals.get(pname, 0.0) + amt
```
is embedded as a fold over the list of per-record breakdowns, each record's
breakdown being `Option`al (absent/null treated as empty by `or`). -/

/-- One inner-loop iteration: add one `(pname, amt)` entry into the running
totals dict. -/
def accStep (acc : List (String × ℚ)) (p : String × ℚ) : List (String × ℚ) :=
  dictInsert acc p.1 (dictGet acc p.1 0 + p.2)

/-- The per-product total aggregation over all group records. -/
def aggregate_product_totals (records : List (Option (List (String × ℚ)))) :
    List (String × ℚ) :=
  records.foldl (fun acc r => (r.getD []).foldl accStep acc) []

/-- Whether a breakdown mentions `name`. -/
def hasName (pb : List (String × ℚ)) (name : String) : Bool :=
  pb.any (fun p => p.1 == name)

/-- Total contribution of one breakdown to the running total of `name`. -/
def contrib (pb : List (String × ℚ)) (name : String) : ℚ :=
  ((pb.filter (fun p => p.1 == name)).map (fun p => p.2)).sum

theorem contrib_eq_zero {pb : List (String × ℚ)} {name : String}
    (h : hasName pb name = false) : contrib pb name = 0 := by
  induction pb with
  | nil => rfl
  | cons p rest ih =>
    simp only [hasName, List.any_cons, Bool.or_eq_false_iff] at h
    simp only [contrib, List.filter_cons, h.1, Bool.false_eq_true, if_false]
    exact ih h.2

theorem foldl_accStep_find (name : String) (pb : List (String × ℚ)) :
    ∀ acc : List (String × ℚ),
      dictFind? (pb.foldl accStep acc) name =
        if hasName pb name then some (dictGet acc name 0 + contrib pb name)
        else dictFind? acc name := by
  induction pb with
  | nil => intro acc; simp [hasName]
  | cons p rest ih =>
    intro acc
    simp only [List.foldl_cons, accStep]
    rw [ih]
    by_cases hp : p.1 = name
    · have hb : (p.1 == name) = true := beq_iff_eq.mpr hp
      have hh : hasName (p :: rest) name = true := by simp [hasName, hb]
      rw [hh]
      simp only [if_true]
      by_cases hr : hasName rest name = true
      · rw [if_pos hr]
        rw [dictGet_dictInsert, if_pos hp.symm]
        have hc : contrib (p :: rest) name = p.2 + contrib rest name := by
          simp [contrib, List.filter_cons, hb]
        rw [hc, hp]
        congr 1
        ring
      · have hr' : hasName rest name = false := by
          revert hr; cases hasName rest name <;> simp
        rw [hr', if_neg (by simp)]
        rw [dictFind?_dictInsert, if_pos hp.symm]
        have hc : contrib (p :: rest) name = p.2 + contrib rest name := by
          simp [contrib, List.filter_cons, hb]
        rw [hc, contrib_eq_zero hr', hp]
        congr 1
        ring
    · have hb : (p.1 == name) = false := beq_eq_false_iff_ne.mpr hp
      have hh : hasName (p :: rest) name = hasName rest name := by
        simp [hasName, hb]
      have hg : dictGet (dictInsert acc p.1 (dictGet acc p.1 0 + p.2)) name 0 =
          dictGet acc name 0 := by
        rw [dictGet_dictInsert, if_neg (fun e => hp e.symm)]
      have hf : dictFind? (dictInsert acc p.1 (dictGet acc p.1 0 + p.2)) name =
          dictFind? acc name := by
        rw [dictFind?_dictInsert, if_neg (fun e => hp e.symm)]
      have hc : contrib (p :: rest) name = contrib rest name := by
        simp [contrib, List.filter_cons, hb]
      rw [hh, hg, hf, hc]

/-- Bool: some record's breakdown mentions `name`. -/
def anyRecordHas (records : List (Option (List (String × ℚ)))) (name : String) : Bool :=
  records.any (fun r => hasName (r.getD []) name)

/-- The total over all records of the contributions to `name`. -/
def contribTotal (records : List (Option (List (String × ℚ)))) (name : String) : ℚ :=
  (records.map (fun r => contrib (r.getD []) name)).sum

theorem foldl_records_find (name : String)
    (records : List (Option (List (String × ℚ)))) :
    ∀ acc : List (String × ℚ),
      dictFind? (records.foldl (fun acc r => (r.getD []).foldl accStep acc) acc) name =
        if anyRecordHas records name then
          some (dictGet acc name 0 + contribTotal records name)
        else dictFind? acc name := by
  induction records with
  | nil => intro acc; simp [anyRecordHas, contribTotal]
  | cons r rest ih =>
    intro acc
    simp only [List.foldl_cons]
    rw [ih]
    have hstep := foldl_accStep_find name (r.getD []) acc
    by_cases hr : hasName (r.getD []) name = true
    · have ha : anyRecordHas (r :: rest) name = true := by
        simp [anyRecordHas, hr]
      rw [ha]
      simp only [if_true]
      have hg : dictGet ((r.getD []).foldl accStep acc) name 0 =
          dictGet acc name 0 + contrib (r.getD []) name := by
        simp only [dictGet, hstep, hr, if_true]
        rfl
      by_cases hrest : anyRecordHas rest name = true
      · rw [if_pos hrest, hg]
        have hc : contribTotal (r :: rest) name =
            contrib (r.getD []) name + contribTotal rest name := by
          simp [contribTotal]
        rw [hc]
        ring_nf
      · have hrest' : anyRecordHas rest name = false := by
          revert hrest; cases anyRecordHas rest name <;> simp
        rw [hrest', if_neg (by simp)]
        rw [hstep, hr]
        simp only [if_true]
        have hzero : contribTotal rest name = 0 := by
          simp only [contribTotal]
          have : ∀ r' ∈ rest, contrib (r'.getD []) name = 0 := by
            intro r' hr'
            apply contrib_eq_zero
            simp only [anyRecordHas, List.any_eq_false] at hrest'
            exact Bool.eq_false_iff.mpr (hrest' r' hr')
          rw [List.sum_eq_zero]
          intro x hx
          simp only [List.mem_map] at hx
          obtain ⟨r', hr', rfl⟩ := hx
          exact this r' hr'
        have hc : contribTotal (r :: rest) name =
            contrib (r.getD []) name + contribTotal rest name := by
          simp [contribTotal]
        rw [hc, hzero]
        ring_nf
    · have hr' : hasName (r.getD []) name = false := by
        revert hr; cases hasName (r.getD []) name <;> simp
      have ha : anyRecordHas (r :: rest) name = anyRecordHas rest name := by
        simp [anyRecordHas, hr']
      have hf : dictFind? ((r.getD []).foldl accStep acc) name = dictFind? acc name := by
        rw [hstep, hr']
        simp
      have hg : dictGet ((r.getD []).foldl accStep acc) name 0 = dictGet acc name 0 := by
        simp [dictGet, hf]
      have hc : contribTotal (r :: rest) name = contribTotal rest name := by
        simp [contribTotal, contrib_eq_zero hr']
      rw [ha, hf, hg, hc]

theorem aggregate_find_char (records : List (Option (List (String × ℚ))))
    (name : String) :
    dictFind? (aggregate_product_totals records) name =
      if anyRecordHas records name then some (contribTotal records name)
      else none := by
  have h := foldl_records_find name records []
  simp only [aggregate_product_totals]
  rw [h]
  simp [dictGet, dictFind?]

/-- Claim C5: the per-product total aggregation is order-independent: for
every permutation of the group records, the resulting name-to-mg mapping is
extensionally the same (the lookup of every product name agrees, including
on which names are present at all). -/
theorem aggregate_product_totals_perm (records records' : List (Option (List (String × ℚ))))
    (h : records.Perm records') (name : String) :
    dictFind? (aggregate_product_totals records) name =
      dictFind? (aggregate_product_totals records') name := by
  rw [aggregate_find_char, aggregate_find_char]
  have hany : anyRecordHas records name = anyRecordHas records' name := by
    simp only [anyRecordHas]
    cases hb : records'.any (fun r => hasName (r.getD []) name) with
    | true =>
      simp only [List.any_eq_true] at hb ⊢
      obtain ⟨r, hr, hh⟩ := hb
      exact ⟨r, h.mem_iff.mpr hr, hh⟩
    | false =>
      simp only [List.any_eq_false] at hb ⊢
      intro r hr
      exact hb r (h.mem_iff.mp hr)
  have hsum : contribTotal records name = contribTotal records' name := by
    simp only [contribTotal]
    exact List.Perm.sum_eq (h.map (fun r => contrib (r.getD []) name))
  rw [hany, hsum]

/-- Witness for C5 at spec example 5: records with breakdowns
`X ↦ 100` and `X ↦ 50, Y ↦ 20`, in both orders, agree on the lookup of
`"X"`. -/
theorem aggregate_product_totals_perm_witness :
    dictFind? (aggregate_product_totals
        [some [("X", 100)], some [("X", 50), ("Y", 20)]]) "X" =
      dictFind? (aggregate_product_totals
        [some [("X", 50), ("Y", 20)], some [("X", 100)]]) "X" :=
  aggregate_product_totals_perm _ _ (List.Perm.swap _ _ _) "X"

/-! ## `slugify` (`clinical_demand_app.py`)

```
def slugify(value: str) -> str:
    value = value.strip().lower()
    value = re.sub(r"[^a-z0-9 _-]", "", value)
    value = re.sub(r"[\s-]+", "_", value)
    return value
```
`strip` is modelled as dropping leading/trailing whitespace, `lower` as
per-character ASCII lowercasing, the first `re.sub` as a character filter
(single-character negated class replaced by the empty string), and the
second `re.sub` as a left-to-right scan that emits one underscore at the
first character of each maximal run of whitespace-or-hyphen characters. -/

/-- The ASCII whitespace characters recognised by Python `str.strip` and by
the regex class `\s`. -/
def pyIsSpace (c : Char) : Bool :=
  c == ' ' || c == '\t' || c == '\n' || c == '\r' || c == '\x0b' || c == '\x0c'

/-- A character matched by the class `[\s-]` of the second substitution. -/
def isSepChar (c : Char) : Bool := pyIsSpace c || c == '-'

/-- A character kept by the first substitution (class `[a-z0-9 _-]`). -/
def keepChar (c : Char) : Bool :=
  (decide ('a' ≤ c) && decide (c ≤ 'z')) || (decide ('0' ≤ c) && decide (c ≤ '9')) ||
    c == ' ' || c == '_' || c == '-'

/-- Python `str.strip`: remove leading and trailing whitespace. -/
def pyStrip (l : List Char) : List Char :=
  ((l.dropWhile pyIsSpace).reverse.dropWhile pyIsSpace).reverse

/-- `re.sub(r"[\s-]+", "_", ·)`: scan left to right; at the first character
of a separator run emit a single underscore, swallow the rest of the run.
The flag records whether the previous character was part of a run. -/
def collapseSeps : Bool → List Char → List Char
  | _, [] => []
  | prevSep, c :: rest =>
    if isSepChar c then
      if prevSep then collapseSeps true rest
      else '_' :: collapseSeps true rest
    else c :: collapseSeps false rest

/-- `slugify`: strip, lowercase, drop characters outside `[a-z0-9 _-]`,
then collapse each separator run to one underscore. -/
def slugify (value : String) : String :=
  String.mk (collapseSeps false
    (((pyStrip value.data).map Char.toLower).filter keepChar))

theorem collapseSeps_chars (l : List Char) :
    ∀ (b : Bool), ∀ c ∈ collapseSeps b l, c = '_' ∨ (c ∈ l ∧ isSepChar c = false) := by
  induction l with
  | nil => intro b c hc; simp [collapseSeps] at hc
  | cons x xs ih =>
    intro b c hc
    by_cases hs : isSepChar x = true
    · cases b with
      | true =>
        simp only [collapseSeps, hs, if_true] at hc
        rcases ih true c hc with h | h
        · exact Or.inl h
        · exact Or.inr ⟨List.mem_cons_of_mem _ h.1, h.2⟩
      | false =>
        simp only [collapseSeps, hs, if_true] at hc
        rcases List.mem_cons.mp hc with h | h
        · exact Or.inl h
        · rcases ih true c h with h' | h'
          · exact Or.inl h'
          · exact Or.inr ⟨List.mem_cons_of_mem _ h'.1, h'.2⟩
    · have hs' : isSepChar x = false := by revert hs; cases isSepChar x <;> simp
      simp only [collapseSeps, hs', Bool.false_eq_true, if_false] at hc
      rcases List.mem_cons.mp hc with h | h
      · subst h; exact Or.inr ⟨List.mem_cons_self _ _, hs'⟩
      · rcases ih false c h with h' | h'
        · exact Or.inl h'
        · exact Or.inr ⟨List.mem_cons_of_mem _ h'.1, h'.2⟩

theorem keep_not_sep (c : Char) (hk : keepChar c = true) (hs : isSepChar c = false) :
    ('a' ≤ c ∧ c ≤ 'z') ∨ ('0' ≤ c ∧ c ≤ '9') ∨ c = '_' := by
  have hsp : c ≠ ' ' := by
    intro h
    rw [h] at hs
    simp [isSepChar, pyIsSpace] at hs
  have hh : c ≠ '-' := by
    intro h
    rw [h] at hs
    simp [isSepChar, pyIsSpace] at hs
  simp only [keepChar, Bool.or_eq_true, Bool.and_eq_true, decide_eq_true_eq,
    beq_iff_eq] at hk
  tauto

/-- Every character of a `slugify` result is a lowercase ASCII letter, a
digit, or an underscore. -/
theorem slugify_chars (s : String) :
    ∀ c ∈ (slugify s).data, ('a' ≤ c ∧ c ≤ 'z') ∨ ('0' ≤ c ∧ c ≤ '9') ∨ c = '_' := by
  intro c hc
  simp only [slugify] at hc
  rcases collapseSeps_chars _ false c hc with h | h
  · exact Or.inr (Or.inr h)
  · have hk : keepChar c = true := List.of_mem_filter h.1
    exact keep_not_sep c hk h.2

theorem collapseSeps_cons_sep (b : Bool) (c : Char) (l : List Char)
    (h : isSepChar c = true) :
    collapseSeps b (c :: l) = (if b then [] else ['_']) ++ collapseSeps true l := by
  cases b <;> simp [collapseSeps, h]

theorem collapseSeps_cons_notsep (b : Bool) (c : Char) (l : List Char)
    (h : isSepChar c = false) :
    collapseSeps b (c :: l) = c :: collapseSeps false l := by
  cases b <;> simp [collapseSeps, h]

theorem collapseSeps_append (xs : List Char) :
    (∀ c, xs.getLast? = some c → isSepChar c = false) → xs ≠ [] →
    ∀ (b : Bool) (rest : List Char),
      collapseSeps b (xs ++ rest) = collapseSeps b xs ++ collapseSeps false rest := by
  induction xs with
  | nil => intro _ hne; exact absurd rfl hne
  | cons x xs ih =>
    intro hx _ b rest
    cases xs with
    | nil =>
      have hx' : isSepChar x = false := hx x rfl
      simp [collapseSeps, hx']
    | cons y ys =>
      have hlast : ∀ c, (y :: ys).getLast? = some c → isSepChar c = false := by
        intro c hc
        apply hx
        rw [List.getLast?_cons_cons]
        exact hc
      have ihy := ih hlast (by simp)
      simp only [List.cons_append] at ihy ⊢
      by_cases hs : isSepChar x = true
      · rw [collapseSeps_cons_sep b x _ hs, collapseSeps_cons_sep b x _ hs,
          ihy true rest, List.append_assoc]
      · have hs' : isSepChar x = false := by revert hs; cases isSepChar x <;> simp
        rw [collapseSeps_cons_notsep b x _ hs', collapseSeps_cons_notsep b x _ hs',
          ihy false rest]
        rfl

theorem collapseSeps_sep_run (seps : List Char) :
    (∀ c ∈ seps, isSepChar c = true) →
    ∀ ys, collapseSeps true (seps ++ ys) = collapseSeps true ys := by
  induction seps with
  | nil => intro _ ys; rfl
  | cons s seps ih =>
    intro hs ys
    have hss : isSepChar s = true := hs s (List.mem_cons_self _ _)
    simp only [List.cons_append, collapseSeps, hss, if_true]
    exact ih (fun c hc => hs c (List.mem_cons_of_mem _ hc)) ys

theorem collapseSeps_true_eq_false (ys : List Char)
    (hy : ∀ c, ys.head? = some c → isSepChar c = false) :
    collapseSeps true ys = collapseSeps false ys := by
  cases ys with
  | nil => rfl
  | cons y ys =>
    have := hy y rfl
    simp [collapseSeps, this]

theorem collapseSeps_false_run (seps ys : List Char)
    (hs1 : seps ≠ []) (hs2 : ∀ c ∈ seps, isSepChar c = true)
    (hy : ∀ c, ys.head? = some c → isSepChar c = false) :
    collapseSeps false (seps ++ ys) = '_' :: collapseSeps false ys := by
  cases seps with
  | nil => exact absurd rfl hs1
  | cons s seps =>
    have hss : isSepChar s = true := hs2 s (List.mem_cons_self _ _)
    rw [List.cons_append, collapseSeps_cons_sep false s _ hss,
      collapseSeps_sep_run seps (fun c hc => hs2 c (List.mem_cons_of_mem _ hc)) ys,
      collapseSeps_true_eq_false ys hy]
    simp

/-- Each maximal run of separators (whitespace/hyphen), in any context
whose boundaries are not separators, is replaced by exactly one
underscore. -/
theorem collapseSeps_run (xs seps ys : List Char)
    (hs1 : seps ≠ []) (hs2 : ∀ c ∈ seps, isSepChar c = true)
    (hx : ∀ c, xs.getLast? = some c → isSepChar c = false)
    (hy : ∀ c, ys.head? = some c → isSepChar c = false) :
    collapseSeps false (xs ++ seps ++ ys) =
      collapseSeps false xs ++ '_' :: collapseSeps false ys := by
  by_cases hxe : xs = []
  · subst hxe
    simp only [List.nil_append]
    exact collapseSeps_false_run seps ys hs1 hs2 hy
  · rw [List.append_assoc, collapseSeps_append xs hx hxe false (seps ++ ys),
      collapseSeps_false_run seps ys hs1 hs2 hy]

/-- Claim C7: `slugify` lowercases and strips, removes every character
outside `[a-z0-9 _-]`, and replaces every maximal run of whitespace or
hyphens with a single underscore; it is deterministic (equal inputs give
equal tokens).  Stated as: (1) determinism, (2) every output character is a
lowercase letter, digit or underscore (nothing else survives the filter
and the run replacement), and (3) the run-replacement equation for the
collapse pass `slugify` is built from. -/
theorem slugify_spec (s t : String) (xs seps ys : List Char)
    (hst : s = t)
    (hs1 : seps ≠ []) (hs2 : ∀ c ∈ seps, isSepChar c = true)
    (hx : ∀ c, xs.getLast? = some c → isSepChar c = false)
    (hy : ∀ c, ys.head? = some c → isSepChar c = false) :
    slugify s = slugify t ∧
    (∀ c ∈ (slugify s).data, ('a' ≤ c ∧ c ≤ 'z') ∨ ('0' ≤ c ∧ c ≤ '9') ∨ c = '_') ∧
    collapseSeps false (xs ++ seps ++ ys) =
      collapseSeps false xs ++ '_' :: collapseSeps false ys :=
  ⟨by rw [hst], slugify_chars s, collapseSeps_run xs seps ys hs1 hs2 hx hy⟩

/-- Witness for C7: a concrete input with mixed case, junk characters and a
separator run, together with a concrete run decomposition. -/
theorem slugify_spec_witness :
    slugify " Drug@ A--B " = slugify " Drug@ A--B " ∧
    (∀ c ∈ (slugify " Drug@ A--B ").data,
      ('a' ≤ c ∧ c ≤ 'z') ∨ ('0' ≤ c ∧ c ≤ '9') ∨ c = '_') ∧
    collapseSeps false (['a'] ++ [' ', '-'] ++ ['b']) =
      collapseSeps false ['a'] ++ '_' :: collapseSeps false ['b'] :=
  slugify_spec " Drug@ A--B " " Drug@ A--B " ['a'] [' ', '-'] ['b']
    rfl (by simp) (by decide) (by decide) (by decide)

/-! ## Sanitized column map (`expand_product_rows`, lines 183-194)

```
sanitized_map = \x7b\x7d
used = set()
for name in sorted(product_names):
    san = slugify(name)
    base = san
    i = 1
    while san in used:
        san = f"\x7bbase\x7d_\x7bi\x7d"
        i += 1
    used.add(san)
    sanitized_map[name] = san
```
The `while` loop is modelled with explicit fuel `used.length + 1`; the
pigeonhole lemma `exists_fresh` below shows this fuel always suffices, so
the fuelled function agrees with the (always-terminating) source loop. -/

/-- Decimal digits of a natural number, most significant first. -/
def natDigits (n : Nat) : List Nat :=
  if n < 10 then [n]
  else natDigits (n / 10) ++ [n % 10]
termination_by n
decreasing_by exact Nat.div_lt_self (by omega) (by omega)

/-- Value of a digit list (left fold, most significant first). -/
def digitsVal (l : List Nat) : Nat := l.foldl (fun acc d => acc * 10 + d) 0

theorem digitsVal_natDigits (n : Nat) : digitsVal (natDigits n) = n := by
  induction n using Nat.strong_induction_on with
  | _ n ih =>
    rw [natDigits]
    split
    · simp [digitsVal]
    · rename_i h
      have hlt : n / 10 < n := Nat.div_lt_self (by omega) (by omega)
      have hv := ih (n / 10) hlt
      simp only [digitsVal, List.foldl_append, List.foldl_cons, List.foldl_nil] at hv ⊢
      rw [hv]
      omega

theorem natDigits_lt (n : Nat) : ∀ d ∈ natDigits n, d < 10 := by
  induction n using Nat.strong_induction_on with
  | _ n ih =>
    rw [natDigits]
    split
    · rename_i h
      intro d hd
      simp only [List.mem_singleton] at hd
      omega
    · rename_i h
      intro d hd
      rw [List.mem_append] at hd
      rcases hd with hd | hd
      · exact ih (n / 10) (Nat.div_lt_self (by omega) (by omega)) d hd
      · simp only [List.mem_singleton] at hd
        subst hd
        omega

theorem natDigits_ne_nil (n : Nat) : natDigits n ≠ [] := by
  rw [natDigits]
  split <;> simp

/-- The decimal digit character for `d` (`str(i)` builds these). -/
def digitChar (d : Nat) : Char := Char.ofNat (48 + d)

/-- Python `str(n)` for a natural number: its decimal representation. -/
def natRepr (n : Nat) : String := String.mk ((natDigits n).map digitChar)

theorem digitChar_toNat : ∀ d < 10, (digitChar d).toNat = 48 + d := by decide

theorem charsVal_go (l : List Nat) (hl : ∀ d ∈ l, d < 10) :
    ∀ acc : Nat,
      (l.map digitChar).foldl (fun acc c => acc * 10 + (c.toNat - 48)) acc =
        l.foldl (fun acc d => acc * 10 + d) acc := by
  induction l with
  | nil => intro acc; rfl
  | cons d rest ih =>
    intro acc
    simp only [List.map_cons, List.foldl_cons]
    rw [show (digitChar d).toNat - 48 = d from by
      rw [digitChar_toNat d (hl d (List.mem_cons_self _ _))]; omega]
    exact ih (fun x hx => hl x (List.mem_cons_of_mem _ hx)) (acc * 10 + d)

theorem natRepr_injective : Function.Injective natRepr := by
  intro m n h
  have hdata : (natDigits m).map digitChar = (natDigits n).map digitChar :=
    congrArg String.data h
  have e1 : ((natDigits m).map digitChar).foldl
        (fun a c => a * 10 + (c.toNat - 48)) 0 =
      ((natDigits n).map digitChar).foldl
        (fun a c => a * 10 + (c.toNat - 48)) 0 := by rw [hdata]
  rw [charsVal_go _ (natDigits_lt m) 0, charsVal_go _ (natDigits_lt n) 0] at e1
  have rm := digitsVal_natDigits m
  have rn := digitsVal_natDigits n
  simp only [digitsVal] at rm rn
  rw [rm, rn] at e1
  exact e1

theorem natRepr_length_pos (n : Nat) : 0 < (natRepr n).length := by
  show 0 < ((natDigits n).map digitChar).length
  rw [List.length_map]
  exact List.length_pos.mpr (natDigits_ne_nil n)

/-- The candidate token sequence tried by the collision loop:
the slugified base itself, then `base_1`, `base_2`, ... -/
def candidateTok (base : String) : Nat → String
  | 0 => base
  | i + 1 => base ++ ("_" ++ natRepr (i + 1))

theorem candidateTok_injective (base : String) :
    Function.Injective (candidateTok base) := by
  intro i j h
  match i, j with
  | 0, 0 => rfl
  | 0, j + 1 =>
    exfalso
    have hl := congrArg String.length h
    rw [candidateTok, candidateTok, String.length_append, String.length_append] at hl
    have := natRepr_length_pos (j + 1)
    omega
  | i + 1, 0 =>
    exfalso
    have hl := congrArg String.length h
    rw [candidateTok, candidateTok, String.length_append, String.length_append] at hl
    have := natRepr_length_pos (i + 1)
    omega
  | i + 1, j + 1 =>
    have hdata := congrArg String.data h
    simp only [candidateTok, String.data_append] at hdata
    have h1 := List.append_cancel_left hdata
    have h2 := List.append_cancel_left h1
    have := natRepr_injective (String.ext h2)
    omega

/-- The `while san in used` loop with explicit fuel: starting from
candidate index `i`, return the first candidate not in `used` (or the
current candidate when fuel runs out — which `exists_fresh` shows never
happens at the fuel `freshToken` supplies). -/
def freshGo (base : String) (used : List String) : Nat → Nat → String
  | 0, i => candidateTok base i
  | fuel + 1, i =>
    if candidateTok base i ∈ used then freshGo base used fuel (i + 1)
    else candidateTok base i

/-- The collision-avoiding token for a slugified base against `used`. -/
def freshToken (san : String) (used : List String) : String :=
  freshGo san used (used.length + 1) 0

theorem freshGo_not_mem (base : String) (used : List String) :
    ∀ fuel i : Nat, (∃ j, j ≤ fuel ∧ candidateTok base (i + j) ∉ used) →
      freshGo base used fuel i ∉ used := by
  intro fuel
  induction fuel with
  | zero =>
    intro i hex
    obtain ⟨j, hj, hnot⟩ := hex
    have hj0 : j = 0 := Nat.le_zero.mp hj
    subst hj0
    simpa [freshGo] using hnot
  | succ fuel ih =>
    intro i hex
    obtain ⟨j, hj, hnot⟩ := hex
    by_cases hmem : candidateTok base i ∈ used
    · simp only [freshGo, if_pos hmem]
      cases j with
      | zero => exact absurd hmem (by simpa using hnot)
      | succ j' =>
        apply ih (i + 1)
        refine ⟨j', by omega, ?_⟩
        have harith : i + 1 + j' = i + (j' + 1) := by omega
        rw [harith]
        exact hnot
    · simp only [freshGo, if_neg hmem]
      exact hmem

theorem exists_fresh (base : String) (used : List String) :
    ∃ j, j ≤ used.length + 1 ∧ candidateTok base j ∉ used := by
  by_contra hcon
  push_neg at hcon
  have hsub : ∀ x ∈ (List.range (used.length + 2)).map (candidateTok base),
      x ∈ used := by
    intro x hx
    rw [List.mem_map] at hx
    obtain ⟨j, hj, rfl⟩ := hx
    rw [List.mem_range] at hj
    exact hcon j (by omega)
  have hnodup : ((List.range (used.length + 2)).map (candidateTok base)).Nodup :=
    List.Nodup.map (candidateTok_injective base) (List.nodup_range _)
  have hcard1 :
      (((List.range (used.length + 2)).map (candidateTok base)).toFinset).card =
        used.length + 2 := by
    rw [List.toFinset_card_of_nodup hnodup]
    simp
  have hsubset :
      ((List.range (used.length + 2)).map (candidateTok base)).toFinset ⊆
        used.toFinset := by
    intro x hx
    rw [List.mem_toFinset] at hx ⊢
    exact hsub x hx
  have hle := Finset.card_le_card hsubset
  have hle2 := List.toFinset_card_le (l := used)
  omega

theorem freshToken_not_mem (san : String) (used : List String) :
    freshToken san used ∉ used := by
  apply freshGo_not_mem
  obtain ⟨j, hj, hnot⟩ := exists_fresh san used
  refine ⟨j, hj, ?_⟩
  rw [Nat.zero_add]
  exact hnot

/-- Insertion sort (Python `sorted`) with a boolean comparison. -/
def insertLe {α : Type} (le : α → α → Bool) (x : α) : List α → List α
  | [] => [x]
  | y :: ys => if le x y then x :: y :: ys else y :: insertLe le x ys

/-- Sorted copy of a list (Python `sorted(...)`). -/
def sortLe {α : Type} (le : α → α → Bool) (l : List α) : List α :=
  l.foldr (insertLe le) []

theorem insertLe_perm {α : Type} (le : α → α → Bool) (x : α) (l : List α) :
    (insertLe le x l).Perm (x :: l) := by
  induction l with
  | nil => exact List.Perm.refl _
  | cons y ys ih =>
    by_cases h : le x y = true
    · simp [insertLe, h]
    · simp only [insertLe, if_neg h]
      exact (ih.cons y).trans (List.Perm.swap x y ys)

theorem sortLe_perm {α : Type} (le : α → α → Bool) (l : List α) :
    (sortLe le l).Perm l := by
  induction l with
  | nil => exact List.Perm.refl _
  | cons x xs ih =>
    simp only [sortLe, List.foldr_cons]
    exact (insertLe_perm le x _).trans (ih.cons x)

/-- `sorted(product_names)` on strings (lexicographic order). -/
def sortNames (l : List String) : List String :=
  sortLe (fun a b => decide (a ≤ b)) l

theorem sortNames_perm (l : List String) : (sortNames l).Perm l :=
  sortLe_perm _ l

/-- One iteration of the sanitized-map loop: slugify the name, bump the
token past collisions, record it in the map and in `used`. -/
def buildStep (acc : List (String × String) × List String) (name : String) :
    List (String × String) × List String :=
  let san := freshToken (slugify name) acc.2
  (acc.1 ++ [(name, san)], acc.2 ++ [san])

/-- The sanitized map of `expand_product_rows`: iterate the product names
in sorted order, slugify each, disambiguate collisions with `_1`, `_2`,
... suffixes. -/
def build_sanitized_map (names : List String) : List (String × String) :=
  ((sortNames names).foldl buildStep ([], [])).1

theorem build_foldl_spec (l : List String) :
    ∀ acc : List (String × String) × List String,
      acc.2 = acc.1.map Prod.snd → (acc.1.map Prod.snd).Nodup →
      (l.foldl buildStep acc).2 = ((l.foldl buildStep acc).1.map Prod.snd) ∧
        ((l.foldl buildStep acc).1.map Prod.snd).Nodup ∧
        (l.foldl buildStep acc).1.map Prod.fst = acc.1.map Prod.fst ++ l := by
  induction l with
  | nil =>
    intro acc h1 h2
    exact ⟨h1, h2, by simp⟩
  | cons x xs ih =>
    intro acc h1 h2
    simp only [List.foldl_cons]
    have hfresh : freshToken (slugify x) acc.2 ∉ acc.2 := freshToken_not_mem _ _
    have h1' : (buildStep acc x).2 = (buildStep acc x).1.map Prod.snd := by
      simp [buildStep, h1]
    have h2' : ((buildStep acc x).1.map Prod.snd).Nodup := by
      simp only [buildStep, List.map_append, List.map_cons, List.map_nil]
      rw [List.nodup_append]
      refine ⟨h2, List.nodup_singleton _, ?_⟩
      intro a ha hb
      simp only [List.mem_singleton] at hb
      subst hb
      rw [← h1] at ha
      exact hfresh ha
    obtain ⟨g1, g2, g3⟩ := ih (buildStep acc x) h1' h2'
    refine ⟨g1, g2, ?_⟩
    rw [g3]
    simp [buildStep]

/-- Claim C6: the sanitized map built over a finite set of product names
(sorted iteration, `slugify`, `_1`/`_2`/... collision suffixes) is a
bijection from the input names onto their tokens: its keys are exactly the
input names (in sorted order) and no two entries share a token. -/
theorem build_sanitized_map_bijection (names : List String) (_h : names.Nodup) :
    ((build_sanitized_map names).map Prod.snd).Nodup ∧
    (build_sanitized_map names).map Prod.fst = sortNames names ∧
    ((build_sanitized_map names).map Prod.fst).Perm names := by
  obtain ⟨h1, h2, h3⟩ :=
    build_foldl_spec (sortNames names) ([], []) rfl (by simp)
  have hfst : (build_sanitized_map names).map Prod.fst = sortNames names := by
    simpa [build_sanitized_map] using h3
  refine ⟨by simpa [build_sanitized_map] using h2, hfst, ?_⟩
  rw [hfst]
  exact sortNames_perm names

/-- Witness for C6 at spec example 4: names `"Drug A"` and `"Drug-A"` both
slugify to `drug_a`; the map assigns distinct tokens. -/
theorem build_sanitized_map_bijection_witness :
    (["Drug A", "Drug-A"] : List String).Nodup ∧
    (((build_sanitized_map ["Drug A", "Drug-A"]).map Prod.snd).Nodup ∧
      (build_sanitized_map ["Drug A", "Drug-A"]).map Prod.fst =
        sortNames ["Drug A", "Drug-A"] ∧
      ((build_sanitized_map ["Drug A", "Drug-A"]).map Prod.fst).Perm
        ["Drug A", "Drug-A"]) :=
  ⟨by decide, build_sanitized_map_bijection ["Drug A", "Drug-A"] (by decide)⟩

/-! ## Row expansion (`expand_product_rows`, lines 196-213)

Group records are Python dicts with heterogeneous values; they are
modelled by `Value` below.  The loop body
```
newr = \x7bk: v for k, v in r.items() if k not in ("product_breakdown", "demand_mg", "demand", "products")\x7d
for k, v in list(newr.items()):
    if isinstance(v, (list, dict)):
        newr[k] = str(v)
pb = r.get("product_breakdown") or \x7b\x7d
for orig_name, san in sorted(sanitized_map.items(), key=lambda kv: kv[1]):
    col = f"\x7bsan\x7d_mg"
    amt = pb.get(orig_name, 0.0)
    newr[col] = int(round(amt)) if amt is not None else 0
```
is embedded by `expandRow`.  `str()` of containers is modelled
structurally (brackets/braces with comma-separated recursively rendered
elements); no claim depends on the exact rendering, only on the fact that
composite fields become strings rather than being dropped. -/

/-- A Python value as it occurs in group records. -/
inductive Value : Type where
  | str : String → Value
  | int : ℤ → Value
  | rat : ℚ → Value
  | list : List Value → Value
  | dict : List (String × Value) → Value
  | null : Value

/-- Decimal string of an integer. -/
def intRepr (n : ℤ) : String :=
  if n < 0 then "-" ++ natRepr n.natAbs else natRepr n.natAbs

/-- Rendering of a rational (Python float `str()` abstracted). -/
def ratRepr (q : ℚ) : String := intRepr q.num ++ "/" ++ natRepr q.den

mutual

/-- Python `str()` of a value (container formatting, abstracted). -/
def pyStr : Value → String
  | .str s => s
  | .int n => intRepr n
  | .rat q => ratRepr q
  | .list l => "[" ++ pyStrList l ++ "]"
  | .dict d => "\x7b" ++ pyStrDict d ++ "\x7d"
  | .null => "None"

/-- Comma-separated rendering of list elements. -/
def pyStrList : List Value → String
  | [] => ""
  | [v] => pyStr v
  | v :: rest => pyStr v ++ ", " ++ pyStrList rest

/-- Comma-separated rendering of dict items. -/
def pyStrDict : List (String × Value) → String
  | [] => ""
  | [(k, v)] => k ++ ": " ++ pyStr v
  | (k, v) :: rest => k ++ ": " ++ pyStr v ++ ", " ++ pyStrDict rest

end

/-- Python `round()` to an integer: nearest, ties to even.  Expressed on
the numerator/denominator: `f` is the floor, `r = num - f*den` the
remainder, and the fractional part `r/den` is compared against `1/2` by
cross-multiplication. -/
def pyRound (q : ℚ) : ℤ :=
  let f := q.num.fdiv q.den
  let r := q.num - f * (q.den : ℤ)
  if 2 * r < (q.den : ℤ) then f
  else if (q.den : ℤ) < 2 * r then f + 1
  else if f % 2 = 0 then f else f + 1

/-- A group record (a Python dict in insertion order). -/
abbrev Row := List (String × Value)

/-- The record's breakdown as a dict: `r.get("product_breakdown")`, with
absent/null/non-dict treated as empty (the key-collection phase checks
`isinstance(pb, dict)`; the expansion phase applies `or \x7b\x7d`; a
truthy non-dict would raise in Python and is outside the modelled
domain). -/
def breakdownOf (r : Row) : List (String × Value) :=
  match dictFind? r "product_breakdown" with
  | some (Value.dict d) => d
  | _ => []

/-- The product names contributed by one record. -/
def breakdownKeys (r : Row) : List String := (breakdownOf r).map Prod.fst

/-- The keys excluded from expanded rows by the dict comprehension. -/
def excludedKeys : List String :=
  ["product_breakdown", "demand_mg", "demand", "products"]

/-- `str()` conversion applied to composite (list/dict) values; scalars
pass through. -/
def stringifyIfComposite (v : Value) : Value :=
  match v with
  | .list _ => .str (pyStr v)
  | .dict _ => .str (pyStr v)
  | _ => v

/-- `int(round(amt)) if amt is not None else 0` for
`amt = pb.get(orig_name, 0.0)`.  A non-numeric amount would raise in
Python and is outside the modelled domain. -/
def mgValue (pb : List (String × Value)) (orig : String) : Value :=
  match dictFind? pb orig with
  | Option.none => Value.int (pyRound 0)
  | some Value.null => Value.int 0
  | some (Value.rat q) => Value.int (pyRound q)
  | some (Value.int n) => Value.int n
  | some _ => Value.int 0

/-- The flattened row for one record: non-excluded fields in order
(composites stringified), then one `{token}_mg` column per map entry,
iterated in token order. -/
def expandRow (smapSorted : List (String × String)) (r : Row) : Row :=
  let newr := (r.filter (fun p => !(excludedKeys.contains p.1))).map
    (fun p => (p.1, stringifyIfComposite p.2))
  smapSorted.foldl
    (fun acc pr => dictInsert acc (pr.2 ++ "_mg") (mgValue (breakdownOf r) pr.1))
    newr

/-- The union of product names over all records (a set, here dedup). -/
def expandNames (rows : List Row) : List String :=
  ((rows.map breakdownKeys).flatten).dedup

/-- `expand_product_rows`: `([], ∅)` on no rows, otherwise the expanded
rows plus the sanitized name-to-token map. -/
def expand_product_rows (rows : List Row) : List Row × List (String × String) :=
  match rows with
  | [] => ([], [])
  | _ :: _ =>
    (rows.map (expandRow (sortLe (fun a b => decide (a.2 ≤ b.2))
        (build_sanitized_map (expandNames rows)))),
      build_sanitized_map (expandNames rows))

/-- Counterexample to claim C8 as stated: `demand_mg` is neither the
nested breakdown nor list-valued, yet the expanded row drops it (the code
excludes the per-group aggregate keys `demand_mg` and `demand` by name as
well). -/
theorem expand_rows_drops_demand_mg :
    dictFind? ((expand_product_rows
        [[("demand_mg", Value.int 5), ("product_breakdown", Value.dict [])]]).1.getD 0 [])
      "demand_mg" = Option.none ∧
    dictFind? [("demand_mg", Value.int 5), ("product_breakdown", Value.dict [])]
      "demand_mg" = some (Value.int 5) :=
  ⟨rfl, rfl⟩

theorem find?_filter_not_excluded (r : Row) (k : String)
    (hex : excludedKeys.contains k = false) :
    dictFind? (r.filter (fun p => !(excludedKeys.contains p.1))) k = dictFind? r k := by
  induction r with
  | nil => rfl
  | cons p rest ih =>
    by_cases hk : p.1 = k
    · have hpe : excludedKeys.contains p.1 = false := by rw [hk]; exact hex
      have hb : (p.1 == k) = true := beq_iff_eq.mpr hk
      simp only [List.filter_cons, hpe, Bool.not_false, if_true]
      simp only [dictFind?]
      rw [List.find?_cons_of_pos _ (by simp [hb]),
        List.find?_cons_of_pos _ (by simp [hb])]
    · have hb : (p.1 == k) = false := beq_eq_false_iff_ne.mpr hk
      by_cases hpe : excludedKeys.contains p.1 = true
      · simp only [List.filter_cons, hpe, Bool.not_true, Bool.false_eq_true, if_false]
        rw [ih]
        simp only [dictFind?]
        rw [List.find?_cons_of_neg _ (by simp [hb])]
      · have hpe' : excludedKeys.contains p.1 = false := by
          revert hpe; cases excludedKeys.contains p.1 <;> simp
        simp only [List.filter_cons, hpe', Bool.not_false, if_true]
        simp only [dictFind?] at ih ⊢
        rw [List.find?_cons_of_neg _ (by simp [hb]),
          List.find?_cons_of_neg _ (by simp [hb])]
        exact ih

theorem find?_map_stringify (r : Row) (k : String) :
    dictFind? (r.map (fun p => (p.1, stringifyIfComposite p.2))) k =
      (dictFind? r k).map stringifyIfComposite := by
  induction r with
  | nil => rfl
  | cons p rest ih =>
    by_cases hk : p.1 = k
    · have hb : (p.1 == k) = true := beq_iff_eq.mpr hk
      simp only [List.map_cons, dictFind?]
      rw [List.find?_cons_of_pos _ (by simp [hb]),
        List.find?_cons_of_pos _ (by simp [hb])]
      rfl
    · have hb : (p.1 == k) = false := beq_eq_false_iff_ne.mpr hk
      simp only [List.map_cons, dictFind?] at ih ⊢
      rw [List.find?_cons_of_neg _ (by simp [hb]),
        List.find?_cons_of_neg _ (by simp [hb])]
      exact ih

theorem find?_expand_cols (es : List (String × String)) (pb : List (String × Value))
    (k : String) (hcol : ∀ e ∈ es, ¬ e.2 ++ "_mg" = k) :
    ∀ acc : Row,
      dictFind? (es.foldl
        (fun acc pr => dictInsert acc (pr.2 ++ "_mg") (mgValue pb pr.1)) acc) k =
      dictFind? acc k := by
  induction es with
  | nil => intro acc; rfl
  | cons e es ih =>
    intro acc
    simp only [List.foldl_cons]
    rw [ih (fun x hx => hcol x (List.mem_cons_of_mem _ hx))]
    rw [dictFind?_dictInsert,
      if_neg (fun h => hcol e (List.mem_cons_self _ _) h.symm)]

theorem expandRow_find_preserved (es : List (String × String)) (r : Row)
    (k : String) (v : Value)
    (hk : dictFind? r k = some v)
    (hex : excludedKeys.contains k = false)
    (hcol : ∀ e ∈ es, ¬ e.2 ++ "_mg" = k) :
    dictFind? (expandRow es r) k = some (stringifyIfComposite v) := by
  simp only [expandRow]
  rw [find?_expand_cols es (breakdownOf r) k hcol]
  rw [find?_map_stringify, find?_filter_not_excluded r k hex, hk]
  rfl

theorem getD_map_expandRow (es : List (String × String)) (rows : List Row)
    (i : Nat) (hi : i < rows.length) :
    (rows.map (expandRow es)).getD i [] = expandRow es (rows.getD i []) := by
  rw [List.getD_eq_getElem?_getD, List.getD_eq_getElem?_getD, List.getElem?_map,
    List.getElem?_eq_getElem hi]
  rfl

/-- Claim C8 (amended): the expanded row keeps every field of the record
except the nested breakdown, the raw `products` list, and the per-group
aggregate demand keys (`demand_mg` and `demand`, which the code also
excludes by name); composite (list/dict) values are converted to a string
representation rather than dropped.  The field's key must not collide with
a generated `{token}_mg` column, which would overwrite it. -/
theorem expand_rows_preserves_fields (rows : List Row) (i : Nat)
    (hi : i < rows.length) (k : String) (v : Value)
    (hk : dictFind? (rows.getD i []) k = some v)
    (hex : excludedKeys.contains k = false)
    (hcol : ∀ e ∈ (expand_product_rows rows).2, ¬ e.2 ++ "_mg" = k) :
    dictFind? ((expand_product_rows rows).1.getD i []) k =
      some (stringifyIfComposite v) := by
  cases rows with
  | nil => simp at hi
  | cons r0 rest =>
    simp only [expand_product_rows] at hcol ⊢
    rw [getD_map_expandRow _ _ i hi]
    apply expandRow_find_preserved _ _ k v hk hex
    intro e he
    exact hcol e ((sortLe_perm _ _).mem_iff.mp he)

/-- Witness for C8 at a record holding a composite non-breakdown field
`extras`: it survives expansion as its string rendering. -/
theorem expand_rows_preserves_fields_witness :
    dictFind? ((expand_product_rows
        [[("group_name", Value.str "G"), ("extras", Value.list []),
          ("products", Value.list []),
          ("product_breakdown", Value.dict [("a", Value.rat 2)])]]).1.getD 0 [])
      "extras" = some (stringifyIfComposite (Value.list [])) :=
  expand_rows_preserves_fields _ 0 (by decide) "extras" (Value.list [])
    rfl (by decide) (by decide)

/-- Number of entries of a row with the given key. -/
def countKey (r : Row) (k : String) : Nat := r.countP (fun p => p.1 == k)

theorem countKey_dictInsert_other (d : Row) (k k2 : String) (v : Value)
    (hne : ¬ k2 = k) :
    countKey (dictInsert d k v) k2 = countKey d k2 := by
  have hb : (k == k2) = false := beq_eq_false_iff_ne.mpr (fun e => hne e.symm)
  induction d with
  | nil => simp [dictInsert, countKey, List.countP_cons, hb]
  | cons p rest ih =>
    by_cases hp : p.1 = k
    · have hpb : (p.1 == k) = true := beq_iff_eq.mpr hp
      have hp2 : (p.1 == k2) = false := by rw [hp]; exact hb
      simp only [dictInsert, hpb, if_true, countKey, List.countP_cons, hb, hp2]
    · have hpb : (p.1 == k) = false := beq_eq_false_iff_ne.mpr hp
      simp only [dictInsert, hpb, Bool.false_eq_true, if_false, countKey,
        List.countP_cons]
      simp only [countKey] at ih
      rw [ih]

theorem countKey_dictInsert_self (d : Row) (k : String) (v : Value) :
    countKey (dictInsert d k v) k = if countKey d k = 0 then 1 else countKey d k := by
  induction d with
  | nil => simp [dictInsert, countKey, List.countP_cons]
  | cons p rest ih =>
    by_cases hp : p.1 = k
    · have hpb : (p.1 == k) = true := beq_iff_eq.mpr hp
      have hL : countKey (dictInsert (p :: rest) k v) k = countKey rest k + 1 := by
        simp [dictInsert, hpb, countKey, List.countP_cons]
      have hR : countKey (p :: rest) k = countKey rest k + 1 := by
        simp [countKey, List.countP_cons, hpb]
      rw [hL, hR, if_neg (by omega)]
    · have hpb : (p.1 == k) = false := beq_eq_false_iff_ne.mpr hp
      simp only [dictInsert, hpb, Bool.false_eq_true, if_false, countKey,
        List.countP_cons]
      simp only [countKey] at ih
      rw [ih]
      simp [hpb]

theorem countKey_expand_cols_other (es : List (String × String))
    (pb : List (String × Value)) (K : String)
    (hcol : ∀ e ∈ es, ¬ e.2 ++ "_mg" = K) :
    ∀ acc : Row,
      countKey (es.foldl
        (fun acc pr => dictInsert acc (pr.2 ++ "_mg") (mgValue pb pr.1)) acc) K =
      countKey acc K := by
  induction es with
  | nil => intro acc; rfl
  | cons e es ih =>
    intro acc
    simp only [List.foldl_cons]
    rw [ih (fun x hx => hcol x (List.mem_cons_of_mem _ hx))]
    exact countKey_dictInsert_other _ _ _ _
      (fun h => hcol e (List.mem_cons_self _ _) h.symm)

theorem countP_beq_le_one_of_nodup {l : List String} (h : l.Nodup) (K : String) :
    l.countP (fun x => x == K) ≤ 1 := by
  induction l with
  | nil => simp
  | cons a l ih =>
    rw [List.countP_cons]
    by_cases ha : a = K
    · subst ha
      have hz : l.countP (fun x => x == a) = 0 := by
        rw [List.countP_eq_zero]
        intro x hx
        have hne : x ≠ a := by
          intro e
          subst e
          exact (List.nodup_cons.mp h).1 hx
        simp [hne]
      simp [hz]
    · have hb : (a == K) = false := beq_eq_false_iff_ne.mpr ha
      simp only [hb, Bool.false_eq_true, if_false]
      have := ih (List.nodup_cons.mp h).2
      omega

theorem countKey_newr_le_one (r : Row) (hkeys : (r.map Prod.fst).Nodup)
    (K : String) :
    countKey ((r.filter (fun p => !(excludedKeys.contains p.1))).map
      (fun p => (p.1, stringifyIfComposite p.2))) K ≤ 1 := by
  have h1 : countKey ((r.filter (fun p => !(excludedKeys.contains p.1))).map
      (fun p => (p.1, stringifyIfComposite p.2))) K =
      (r.filter (fun p => !(excludedKeys.contains p.1))).countP
        (fun p => p.1 == K) := by
    simp only [countKey, List.countP_map]
    rfl
  rw [h1]
  have h2 : (r.filter (fun p => !(excludedKeys.contains p.1))).countP
      (fun p => p.1 == K) ≤ r.countP (fun p => p.1 == K) := by
    rw [List.countP_filter]
    exact List.countP_mono_left (fun x _ hx => by
      rw [Bool.and_eq_true] at hx
      exact hx.1)
  have h3 : r.countP (fun p => p.1 == K) =
      (r.map Prod.fst).countP (fun x => x == K) := by
    rw [List.countP_map]
    rfl
  have h4 := countP_beq_le_one_of_nodup hkeys K
  omega

theorem dictFind?_isSome_of_mem_keys {κ α : Type} [BEq κ] [LawfulBEq κ]
    (d : List (κ × α)) (k : κ) (h : k ∈ d.map Prod.fst) :
    ∃ v, dictFind? d k = some v := by
  induction d with
  | nil => simp at h
  | cons p rest ih =>
    by_cases hp : p.1 = k
    · refine ⟨p.2, ?_⟩
      simp only [dictFind?]
      rw [List.find?_cons_of_pos _ (by simp [beq_iff_eq.mpr hp])]
      rfl
    · have hb : (p.1 == k) = false := beq_eq_false_iff_ne.mpr hp
      have h' : k ∈ rest.map Prod.fst := by
        simp only [List.map_cons, List.mem_cons] at h
        rcases h with h | h
        · exact absurd h.symm hp
        · exact h
      obtain ⟨v, hv⟩ := ih h'
      refine ⟨v, ?_⟩
      simp only [dictFind?] at hv ⊢
      rw [List.find?_cons_of_neg _ (by simp [hb])]
      exact hv

theorem dictFind?_eq_some_mem {κ α : Type} [BEq κ] [LawfulBEq κ]
    {d : List (κ × α)} {k : κ} {v : α} (h : dictFind? d k = some v) :
    (k, v) ∈ d := by
  simp only [dictFind?] at h
  cases hf : d.find? (fun p => p.1 == k) with
  | none => rw [hf] at h; simp at h
  | some q =>
    rw [hf] at h
    have hmem := List.mem_of_find?_eq_some hf
    have hqk := List.find?_some hf
    have hk : q.1 = k := beq_iff_eq.mp hqk
    have hv : q.2 = v := by simpa using h
    have heq : (k, v) = q := by
      obtain ⟨q1, q2⟩ := q
      simp only at hk hv
      rw [hk, hv]
    rw [heq]
    exact hmem

theorem tok_ne_of_snd_ne {e : String × String} {san : String}
    (h : ¬ e.2 = san) : ¬ e.2 ++ "_mg" = san ++ "_mg" := by
  intro hq
  apply h
  have hdata := congrArg String.data hq
  simp only [String.data_append] at hdata
  exact String.ext (List.append_cancel_right hdata)

theorem expandRow_mg_col (es : List (String × String)) (r : Row)
    (name san : String)
    (hsnd : (es.map Prod.snd).Nodup) (hmem : (name, san) ∈ es)
    (hkeys : (r.map Prod.fst).Nodup) :
    countKey (expandRow es r) (san ++ "_mg") = 1 ∧
    dictFind? (expandRow es r) (san ++ "_mg") =
      some (mgValue (breakdownOf r) name) := by
  obtain ⟨es₁, es₂, rfl⟩ := List.append_of_mem hmem
  have hmapsnd : ((es₁.map Prod.snd) ++ san :: (es₂.map Prod.snd)).Nodup := by
    simpa using hsnd
  rw [List.nodup_append] at hmapsnd
  obtain ⟨hnd1, hnd2, hdisj⟩ := hmapsnd
  have hs1 : ∀ e ∈ es₁, ¬ e.2 = san := by
    intro e he hc
    exact hdisj (a := san) (by rw [← hc]; exact List.mem_map_of_mem _ he)
      (List.mem_cons_self _ _)
  have hs2 : ∀ e ∈ es₂, ¬ e.2 = san := by
    intro e he hc
    have := (List.nodup_cons.mp hnd2).1
    exact this (by rw [← hc]; exact List.mem_map_of_mem _ he)
  have hcol1 : ∀ e ∈ es₁, ¬ e.2 ++ "_mg" = san ++ "_mg" :=
    fun e he => tok_ne_of_snd_ne (hs1 e he)
  have hcol2 : ∀ e ∈ es₂, ¬ e.2 ++ "_mg" = san ++ "_mg" :=
    fun e he => tok_ne_of_snd_ne (hs2 e he)
  simp only [expandRow, List.foldl_append, List.foldl_cons]
  have hc1 := countKey_expand_cols_other es₁ (breakdownOf r) (san ++ "_mg") hcol1
    ((r.filter (fun p => !(excludedKeys.contains p.1))).map
      (fun p => (p.1, stringifyIfComposite p.2)))
  have hf1 := find?_expand_cols es₁ (breakdownOf r) (san ++ "_mg") hcol1
    ((r.filter (fun p => !(excludedKeys.contains p.1))).map
      (fun p => (p.1, stringifyIfComposite p.2)))
  constructor
  · rw [countKey_expand_cols_other es₂ (breakdownOf r) (san ++ "_mg") hcol2]
    rw [countKey_dictInsert_self, hc1]
    have hle := countKey_newr_le_one r hkeys (san ++ "_mg")
    by_cases h0 : countKey ((r.filter (fun p => !(excludedKeys.contains p.1))).map
        (fun p => (p.1, stringifyIfComposite p.2))) (san ++ "_mg") = 0
    · rw [if_pos h0]
    · rw [if_neg h0]
      omega
  · rw [find?_expand_cols es₂ (breakdownOf r) (san ++ "_mg") hcol2]
    rw [dictFind?_dictInsert, if_pos rfl]

/-- Counterexample to claim C9 as stated: the stored column value is
`int(round(amount))`, not the record's exact mg amount — a breakdown
amount of `1/2` is stored as the integer `0`. -/
theorem expand_rows_rounds_amounts :
    dictFind? ((expand_product_rows
        [[("product_breakdown", Value.dict [("a", Value.rat (mkRat 1 2))])]]).1.getD 0 [])
      "a_mg" = some (Value.int 0) ∧
    Value.int 0 ≠ Value.rat (mkRat 1 2) :=
  ⟨rfl, fun h => Value.noConfusion h⟩

/-- Claim C9 (amended): for every record index and every product name
appearing in any record's breakdown, the expanded row has exactly one
column named `{token}_mg` for that name's token (records being genuine
dicts, without duplicate keys), and the column holds `int(round(amt))`
where `amt` is the record's amount for that product (`0.0` when the
record's breakdown has no entry). -/
theorem expand_rows_mg_columns (rows : List Row) (i : Nat) (hi : i < rows.length)
    (name : String) (hname : name ∈ expandNames rows)
    (hkeys : ∀ r ∈ rows, (r.map Prod.fst).Nodup) :
    ∃ san, dictFind? (expand_product_rows rows).2 name = some san ∧
      countKey ((expand_product_rows rows).1.getD i []) (san ++ "_mg") = 1 ∧
      dictFind? ((expand_product_rows rows).1.getD i []) (san ++ "_mg") =
        some (mgValue (breakdownOf (rows.getD i [])) name) := by
  cases rows with
  | nil => simp at hi
  | cons r0 rest =>
    simp only [expand_product_rows]
    have hspec := build_foldl_spec (sortNames (expandNames (r0 :: rest))) ([], [])
      rfl (by simp)
    have hkeysmap : (build_sanitized_map (expandNames (r0 :: rest))).map Prod.fst =
        sortNames (expandNames (r0 :: rest)) := by
      simpa [build_sanitized_map] using hspec.2.2
    have hsndnodup : ((build_sanitized_map (expandNames (r0 :: rest))).map
        Prod.snd).Nodup := by
      simpa [build_sanitized_map] using hspec.2.1
    have hmemkeys : name ∈ (build_sanitized_map (expandNames (r0 :: rest))).map
        Prod.fst := by
      rw [hkeysmap]
      exact (sortNames_perm _).mem_iff.mpr hname
    obtain ⟨san, hsan⟩ := dictFind?_isSome_of_mem_keys _ name hmemkeys
    refine ⟨san, hsan, ?_⟩
    have hmm : (name, san) ∈ build_sanitized_map (expandNames (r0 :: rest)) :=
      dictFind?_eq_some_mem hsan
    have hperm : (sortLe (fun a b => decide (a.2 ≤ b.2))
        (build_sanitized_map (expandNames (r0 :: rest)))).Perm
        (build_sanitized_map (expandNames (r0 :: rest))) := sortLe_perm _ _
    have hmem2 : (name, san) ∈ sortLe (fun a b => decide (a.2 ≤ b.2))
        (build_sanitized_map (expandNames (r0 :: rest))) := hperm.mem_iff.mpr hmm
    have hsnd2 : ((sortLe (fun a b => decide (a.2 ≤ b.2))
        (build_sanitized_map (expandNames (r0 :: rest)))).map Prod.snd).Nodup := by
      rw [List.Perm.nodup_iff (hperm.map Prod.snd)]
      exact hsndnodup
    rw [getD_map_expandRow _ _ i hi]
    have hget : (r0 :: rest).getD i [] = (r0 :: rest).get ⟨i, hi⟩ := by
      rw [List.getD_eq_getElem?_getD, List.getElem?_eq_getElem hi]
      rfl
    have hrow : (((r0 :: rest).getD i []).map Prod.fst).Nodup := by
      rw [hget]
      exact hkeys _ (List.get_mem _ _ hi)
    exact expandRow_mg_col _ _ name san hsnd2 hmem2 hrow

/-- Witness for C9: one record with breakdown `a ↦ 2`; the expanded row
has exactly one `a_mg` column holding `2`. -/
theorem expand_rows_mg_columns_witness :
    ∃ san, dictFind? (expand_product_rows
        [[("patients", Value.int 3),
          ("product_breakdown", Value.dict [("a", Value.rat 2)])]]).2 "a" =
        some san ∧
      countKey ((expand_product_rows
        [[("patients", Value.int 3),
          ("product_breakdown", Value.dict [("a", Value.rat 2)])]]).1.getD 0 [])
        (san ++ "_mg") = 1 ∧
      dictFind? ((expand_product_rows
        [[("patients", Value.int 3),
          ("product_breakdown", Value.dict [("a", Value.rat 2)])]]).1.getD 0 [])
        (san ++ "_mg") =
        some (mgValue (breakdownOf ([[("patients", Value.int 3),
          ("product_breakdown", Value.dict [("a", Value.rat 2)])]].getD 0 []))
          "a") :=
  expand_rows_mg_columns _ 0 (by decide) "a" (by decide)
    (by
      intro r hr
      simp only [List.mem_singleton] at hr
      subst hr
      decide)

end ClinicalDemand
